import Mathlib

/-!
Verification of the purchase-order processing demo.

The development shallowly embeds the review/lifecycle core of the repository:
  * `_flatten_properties` / `_unflatten_to_properties` (pages/2_Review.py),
  * the Send handler building `reviewed_data` and calling the SAP sink,
  * `send_purchase_order` and `_build_sap_payload` (services/sap.py),
  * `save_extraction` / `update_extraction` (services/bigquery.py),
  * `process_document` (services/document_ai.py),
  * the batch loop of pages/1_Process.py.

Python dicts are modelled as insertion-ordered association lists
(`List (String × α)`) with Python's `d[k] = v` semantics: an existing key is
overwritten in place, a new key is appended at the end.
-/

namespace PO

/-! ### Python dict primitives -/

/-- Python `d[k] = v` on an insertion-ordered dict: overwrite in place if the
key exists, else append at the end. -/
def dinsert {α : Type} (k : String) (v : α) : List (String × α) → List (String × α)
  | [] => [(k, v)]
  | (k', v') :: rest => if k' = k then (k, v) :: rest else (k', v') :: dinsert k v rest

/-- Python `d.get(k)` / `d[k]`. -/
def dlookup {α : Type} (k : String) : List (String × α) → Option α
  | [] => none
  | (k', v) :: rest => if k' = k then some v else dlookup k rest

/-- Python `k in d`. -/
def hasKey {α : Type} (k : String) (d : List (String × α)) : Bool :=
  d.any (fun kv => kv.1 == k)

/-- Python `d.update(items)`: insert every item of the second dict in order. -/
def dupdate {α : Type} (d items : List (String × α)) : List (String × α) :=
  items.foldl (fun acc kv => dinsert kv.1 kv.2 acc) d

/-- The keys of a dict, in insertion order. -/
def dkeys {α : Type} (d : List (String × α)) : List String :=
  d.map Prod.fst

/-! ### The nested-properties tree (FieldTree nodes of the spec)

A node of a `properties` list in the extracted/reviewed JSON: a dict with
`name`, `value` and an optional `properties` list; a missing/empty
`properties` key is modelled as `children = []`. -/

inductive PropNode : Type where
  | mk (name : String) (value : String) (children : List PropNode)

def PropNode.name : PropNode → String
  | .mk n _ _ => n

def PropNode.value : PropNode → String
  | .mk _ v _ => v

def PropNode.children : PropNode → List PropNode
  | .mk _ _ cs => cs

@[simp] theorem PropNode.name_mk (n v : String) (cs : List PropNode) :
    (PropNode.mk n v cs).name = n := rfl

@[simp] theorem PropNode.value_mk (n v : String) (cs : List PropNode) :
    (PropNode.mk n v cs).value = v := rfl

@[simp] theorem PropNode.children_mk (n v : String) (cs : List PropNode) :
    (PropNode.mk n v cs).children = cs := rfl

/-! ### Flattener (pages/2_Review.py, `_flatten_properties`) -/

/-- The loop body of `_flatten_properties`: `flat` is the dict being built,
`pre` the `prefix` argument.  For each prop: `key = name if not prefix else
f"{prefix}/{name}"`; `flat[key] = value`; if the prop has (truthy, i.e.
non-empty) `properties`, `flat.update(recursive call with prefix=key)`. -/
def flattenAux (pre : String) (flat : List (String × String)) :
    List PropNode → List (String × String)
  | [] => flat
  | .mk n v cs :: rest =>
      let key := if pre = "" then n else pre ++ "/" ++ n
      let flat1 := dinsert key v flat
      let flat2 := if cs.isEmpty then flat1 else dupdate flat1 (flattenAux key [] cs)
      flattenAux pre flat2 rest

/-- `_flatten_properties(properties)` with the default `prefix=""`. -/
def _flatten_properties (properties : List PropNode) : List (String × String) :=
  flattenAux "" [] properties

/-! ### Unflattener (pages/2_Review.py, `_unflatten_to_properties`) -/

/-- One node of the intermediate dict tree of `_unflatten_to_properties`:
`{"value": ..., "children": {...}}`. -/
inductive TrieN : Type where
  | mk (value : String) (children : List (String × TrieN))

def TrieN.value : TrieN → String
  | .mk v _ => v

def TrieN.children : TrieN → List (String × TrieN)
  | .mk _ cs => cs

@[simp] theorem TrieN.value_of_mk (v : String) (cs : List (String × TrieN)) :
    (TrieN.mk v cs).value = v := rfl

@[simp] theorem TrieN.children_of_mk (v : String) (cs : List (String × TrieN)) :
    (TrieN.mk v cs).children = cs := rfl

/-- In-place update of the entry at key `k` (no-op if absent), preserving
dict order — models mutating `node[part]` through a reference. -/
def updAt (k : String) (f : TrieN → TrieN) :
    List (String × TrieN) → List (String × TrieN)
  | [] => []
  | (k', n) :: rest =>
      if k' = k then (k', f n) :: rest else (k', n) :: updAt k f rest

/-- Inserting one `(path parts, value)` entry into the intermediate tree:
walk `parts[:-1]` creating `{"value": "", "children": {}}` nodes as needed,
then at the leaf either overwrite the stored `value` (keeping children) or
append a fresh `{"value": value, "children": {}}` node. -/
def trieInsert : List String → String → List (String × TrieN) → List (String × TrieN)
  | [], _, t => t
  | [leaf], v, t =>
      if hasKey leaf t then updAt leaf (fun n => .mk v n.children) t
      else t ++ [(leaf, .mk v [])]
  | p :: q :: rest, v, t =>
      let t' := if hasKey p t then t else t ++ [(p, .mk "" [])]
      updAt p (fun n => .mk n.value (trieInsert (q :: rest) v n.children)) t'

/-- Python `path.split("/")`: split the character sequence on every
occurrence of `/` (adjacent separators and boundary separators produce
empty pieces, and `"".split("/") == [""]`, exactly as `List.splitOn`
behaves). -/
def pySplit (s : String) : List String :=
  (s.data.splitOn '/').map (fun cs => String.mk cs)

/-- The inner `_build` of `_unflatten_to_properties`: each tree entry becomes
`{"name": name, "value": value}`, with a `properties` key only when the
`children` dict is non-empty. -/
def buildProps : List (String × TrieN) → List PropNode
  | [] => []
  | (n, .mk v cs) :: rest =>
      PropNode.mk n v (if cs.isEmpty then [] else buildProps cs) :: buildProps rest

/-- `_unflatten_to_properties(flat_row)`: insert every row entry in dict
order into the intermediate tree, then `_build` it. -/
def _unflatten_to_properties (flat_row : List (String × String)) : List PropNode :=
  buildProps (flat_row.foldl (fun root kv => trieInsert (pySplit kv.1) kv.2 root) [])

/-! ### Line-items editor rows (pages/2_Review.py, lines 223–233) -/

/-- One element of an `edited_rows` list: either `{"properties": [...]}` or a
bare `{"value": ...}` dict. -/
inductive GroupItem : Type where
  | props (properties : List PropNode)
  | scalar (value : String)

/-- The per-row body of the `edited_rows` loop: a row is nested when any key
contains `/`, or it has more than one column, or no column named `value`. -/
def classifyRow (row : List (String × String)) : GroupItem :=
  let has_nested := row.any (fun kv => kv.1.contains '/')
  if has_nested || row.length > 1 || !hasKey "value" row then
    .props (_unflatten_to_properties row)
  else
    .scalar ((dlookup "value" row).getD "")

/-- The whole `edited_rows` loop over the edited table's rows. -/
def editedRowsToItems (rows : List (List (String × String))) : List GroupItem :=
  rows.map classifyRow

/-! ### Reviewed-data construction on Send (pages/2_Review.py, lines 246–258) -/

/-- A value of the `reviewed_data` dict: a flat field becomes
`{"value": ..., "edited": ...}` and a grouped field becomes a list of
group items. -/
inductive ReviewedVal : Type where
  | flatField (value : String) (edited : Bool)
  | group (items : List GroupItem)

/-- The flat-fields editor output: the `Field` column is disabled, the
`Value` column carries the user's edit when present (`edits f = some w`)
and the original value otherwise. -/
def applyEdits (rows : List (String × String)) (edits : String → Option String) :
    List (String × String) :=
  rows.map (fun r => (r.1, (edits r.1).getD r.2))

/-- The Send handler's `reviewed_data` dict: every row of the flat editor is
stored as `{"value": row["Value"], "edited": True}`, then every grouped
field's item list is stored under the group name. -/
def buildReviewedData (flatRows : List (String × String))
    (groups : List (String × List GroupItem)) : List (String × ReviewedVal) :=
  let d := flatRows.foldl (fun d r => dinsert r.1 (ReviewedVal.flatField r.2 true) d) []
  groups.foldl (fun d g => dinsert g.1 (ReviewedVal.group g.2) d) d

/-! ### SAP sink (services/sap.py) -/

structure SapResult : Type where
  document_number : String
  status : String
  message : String
deriving DecidableEq

inductive SapFail : Type where
  | notImplemented (msg : String)
deriving DecidableEq

structure SapPayload : Type where
  source_filename : String
  header : List (String × String)
  line_items : List GroupItem

/-- `_build_sap_payload`: non-list fields become header entries (`value` of a
dict, the raw value otherwise); list fields contribute their items, in
order, to `line_items`. -/
def _build_sap_payload (po_data : List (String × ReviewedVal)) (filename : String) :
    SapPayload :=
  { source_filename := filename
    header := po_data.filterMap (fun kv =>
      match kv.2 with
      | .flatField v _ => some (kv.1, v)
      | .group _ => none)
    line_items := po_data.flatMap (fun kv =>
      match kv.2 with
      | .group items => items
      | .flatField _ _ => []) }

/-- `send_purchase_order`: when `SAP_API_URL` is set the live branch raises
`NotImplementedError`; in mock mode (unset) it returns a generated document
number `SAP-<8 hex chars>`.  `docSuffix` stands for `uuid4().hex[:8].upper()`. -/
def send_purchase_order (api_url : Option String)
    (po_data : List (String × ReviewedVal)) (filename : String)
    (docSuffix : String) : Except SapFail SapResult :=
  let _payload := _build_sap_payload po_data filename
  match api_url with
  | some _ =>
      .error (.notImplemented
        "Live SAP integration is not yet implemented. See the comments in services/sap.py for instructions.")
  | none =>
      .ok { document_number := "SAP-" ++ docSuffix
            status := "CREATED"
            message := "Mock SAP document SAP-" ++ docSuffix ++ " created for " ++ filename ++ "." }

/-! ### Document AI extraction (services/document_ai.py, `process_document`) -/

/-- A nested property of a Document AI entity. -/
structure SubProp : Type where
  type_ : String
  mention_text : String
  confidence : ℚ

/-- A top-level Document AI entity (`normalized_text = some t` models a set
`normalized_value` message with text `t`). -/
structure Entity : Type where
  type_ : String
  mention_text : String
  normalized_text : Option String
  confidence : ℚ
  properties : List SubProp

/-- One `{"name": ..., "value": ..., "confidence": ...}` entry of a
`field_data["properties"]` list. -/
structure PropEntry : Type where
  name : String
  value : String
  confidence : ℚ
deriving DecidableEq

/-- One `field_data` dict; the `properties` key is present (`some`) exactly
when the entity had (truthy) properties. -/
structure FieldData : Type where
  value : String
  confidence : ℚ
  type_ : String
  properties : Option (List PropEntry)
deriving DecidableEq

/-- `entity.mention_text or entity.normalized_value.text if
entity.normalized_value else entity.mention_text or ""` (the conditional
binds looser than `or`). -/
def entityValue (e : Entity) : String :=
  match e.normalized_text with
  | some nv => if e.mention_text = "" then nv else e.mention_text
  | none => e.mention_text

def toFieldData (e : Entity) : FieldData :=
  { value := entityValue e
    confidence := e.confidence
    type_ := e.type_
    properties :=
      if e.properties.isEmpty then none
      else some (e.properties.map (fun p =>
        { name := p.type_, value := p.mention_text, confidence := p.confidence })) }

/-- A value of the `fields` dict: a single entity, or a list when several
entities share the same type. -/
inductive FieldVal : Type where
  | single (fd : FieldData)
  | multi (fds : List FieldData)
deriving DecidableEq

/-- The per-entity body of the `process_document` loop: merge `field_data`
into `fields`, making or extending a list on a repeated `type_`. -/
def addField (fields : List (String × FieldVal)) (e : Entity) :
    List (String × FieldVal) :=
  let fd := toFieldData e
  match dlookup e.type_ fields with
  | some (.single old) => dinsert e.type_ (.multi [old, fd]) fields
  | some (.multi olds) => dinsert e.type_ (.multi (olds ++ [fd])) fields
  | none => dinsert e.type_ (.single fd) fields

def buildFields (entities : List Entity) : List (String × FieldVal) :=
  entities.foldl addField []

/-- `overall_confidence`: the loop sums each entity's confidence and counts
entities; the result is `total/count`, or `0.0` with no entities. -/
def overall_confidence (entities : List Entity) : ℚ :=
  let total := entities.foldl (fun a e => a + e.confidence) 0
  if entities.length > 0 then total / entities.length else 0

structure ProcessResult : Type where
  fields : List (String × FieldVal)
  confidence : ℚ
  raw_text : String

/-- `process_document` (the part after the remote call): parse the entities
into `fields` and aggregate the record-level confidence. -/
def process_document (entities : List Entity) (text : String) : ProcessResult :=
  { fields := buildFields entities
    confidence := overall_confidence entities
    raw_text := text }

/-! ### Record store (services/bigquery.py) -/

/-- One row of the `extractions` table.  Timestamps are abstracted as
naturals; absent columns are `none`. -/
structure Record : Type where
  id : String
  filename : String
  gcs_uri : String
  processor_name : String
  processor_display_name : String
  status : String
  extracted_data : List (String × FieldVal)
  confidence : ℚ
  created_at : Nat
  reviewed_data : Option (List (String × ReviewedVal))
  reviewed_at : Option Nat
  sent_at : Option Nat

/-- The `record` dict argument of `save_extraction`; `status = none` models
an absent key (defaulted to `"EXTRACTED"`). -/
structure SaveReq : Type where
  filename : String
  gcs_uri : String
  processor_name : String
  processor_display_name : String
  status : Option String
  extracted_data : List (String × FieldVal)
  confidence : ℚ

/-- The row inserted by `save_extraction`: only the nine INSERT columns are
set; `reviewed_data`, `reviewed_at` and `sent_at` stay NULL. -/
def createdRecord (req : SaveReq) (record_id : String) (now : Nat) : Record :=
  { id := record_id
    filename := req.filename
    gcs_uri := req.gcs_uri
    processor_name := req.processor_name
    processor_display_name := req.processor_display_name
    status := req.status.getD "EXTRACTED"
    extracted_data := req.extracted_data
    confidence := req.confidence
    created_at := now
    reviewed_data := none
    reviewed_at := none
    sent_at := none }

/-- `save_extraction`: append the new row, return the record id. -/
def save_extraction (store : List Record) (req : SaveReq) (record_id : String)
    (now : Nat) : List Record × String :=
  (store ++ [createdRecord req record_id now], record_id)

/-- The `updates` dict of `update_extraction`: `some` marks a present key,
and a present key contributes a SET clause. -/
structure UpdateSpec : Type where
  reviewed_data : Option (List (String × ReviewedVal))
  status : Option String
  reviewed_at : Option Nat
  sent_at : Option Nat

/-- Effect of the generated UPDATE statement on one matching row. -/
def applyUpdate (u : UpdateSpec) (r : Record) : Record :=
  { r with
    reviewed_data := match u.reviewed_data with
      | some d => some d
      | none => r.reviewed_data
    status := match u.status with
      | some s => s
      | none => r.status
    reviewed_at := match u.reviewed_at with
      | some t => some t
      | none => r.reviewed_at
    sent_at := match u.sent_at with
      | some t => some t
      | none => r.sent_at }

/-- `update_extraction`: `UPDATE ... WHERE id = @record_id`. -/
def update_extraction (store : List Record) (record_id : String) (u : UpdateSpec) :
    List Record :=
  store.map (fun r => if r.id = record_id then applyUpdate u r else r)

/-! ### The Send handler (pages/2_Review.py, lines 245–293) -/

/-- The `updates` dict passed by the Send handler: one `now` timestamp is
written to both `reviewed_at` and `sent_at`, status becomes `SENT`. -/
def sendUpdate (rdata : List (String × ReviewedVal)) (now : Nat) : UpdateSpec :=
  { reviewed_data := some rdata
    status := some "SENT"
    reviewed_at := some now
    sent_at := some now }

/-- The Send button handler: build `reviewed_data`, call the SAP sink
(`sap` is the outcome of `sap.send_purchase_order`), and only on success —
and only when the record has an id — update the stored record.  On a sink
failure the handler stops before touching the store and surfaces the
error. -/
def sendHandler (store : List Record) (record_id : Option String)
    (flatRows : List (String × String)) (groups : List (String × List GroupItem))
    (sap : Except String SapResult) (now : Nat) :
    List Record × Except String SapResult :=
  let reviewed := buildReviewedData flatRows groups
  match sap with
  | .error e => (store, .error e)
  | .ok res =>
      match record_id with
      | some rid => (update_extraction store rid (sendUpdate reviewed now), .ok res)
      | none => (store, .ok res)

/-! ### Batch processing (pages/1_Process.py, lines 52–110) -/

/-- The per-document collaborator outcomes: blob upload, remote extraction,
and record insertion, each either failing with a message or succeeding
(`save` returns the fresh record id). -/
structure DocOracle : Type where
  upload : Except String String
  extractOutcome : Except String (List Entity × String)
  save : Except String String

/-- One element of the `results` list: a successful record or an
ERROR-tagged entry carrying the filename and the message. -/
inductive BatchEntry : Type where
  | ok (id filename gcs_uri : String) (fields : List (String × FieldVal)) (confidence : ℚ)
  | err (filename : String) (error : String)
deriving DecidableEq

/-- The try/except body for one uploaded file: on any failure produce an
ERROR entry and persist nothing; on success persist via `save_extraction`
and record a success entry. -/
def processOne (filename : String) (o : DocOracle) (processor_name processor_display : String)
    (now : Nat) : BatchEntry × Option Record :=
  match o.upload with
  | .error e => (.err filename e, none)
  | .ok gcs_uri =>
      match o.extractOutcome with
      | .error e => (.err filename e, none)
      | .ok (entities, text) =>
          let extraction := process_document entities text
          match o.save with
          | .error e => (.err filename e, none)
          | .ok rid =>
              (.ok rid filename gcs_uri extraction.fields extraction.confidence,
               some (createdRecord
                 { filename := filename
                   gcs_uri := gcs_uri
                   processor_name := processor_name
                   processor_display_name := processor_display
                   status := some "EXTRACTED"
                   extracted_data := extraction.fields
                   confidence := extraction.confidence } rid now))

/-- The sequential loop over the uploaded files: one `processOne` per file,
appending each success to the store and each entry to `results`. -/
def processBatch (docs : List (String × DocOracle)) (pname pdisp : String)
    (now : Nat) (store : List Record) : List BatchEntry × List Record :=
  match docs with
  | [] => ([], store)
  | (fn, o) :: rest =>
      let step := processOne fn o pname pdisp now
      let store1 := match step.2 with
        | some r => store ++ [r]
        | none => store
      let next := processBatch rest pname pdisp now store1
      (step.1 :: next.1, next.2)

/-! ### Reachable records (lifecycle) -/

/-- Records reachable through the operations the code performs: creation by
`save_extraction` as called from the Process page (explicit
`status="EXTRACTED"`), followed by any number of successful Sends.  A send
carried out at time `t` can only happen after creation (`created_at ≤ t`,
the wall clock being taken as nondecreasing across operations); a failed
send leaves the record untouched (no constructor needed). -/
inductive Reachable : Record → Prop where
  | created (req : SaveReq) (rid : String) (t : Nat)
      (hstatus : req.status = some "EXTRACTED") :
      Reachable (createdRecord req rid t)
  | sent (r : Record) (hr : Reachable r) (d : List (String × ReviewedVal))
      (t : Nat) (ht : r.created_at ≤ t) :
      Reachable (applyUpdate (sendUpdate d t) r)

/-! ### Well-formedness predicates on forests -/

/-- A node name contains no `/`. -/
def noSlash (s : String) : Prop := ('/' : Char) ∉ s.data

instance (s : String) : Decidable (noSlash s) := by
  unfold noSlash; infer_instance

/-- Trees whose names are non-empty, slash-free, and unique among siblings,
recursively. -/
inductive GoodTree : PropNode → Prop where
  | mk {n v : String} {cs : List PropNode}
      (hne : n ≠ "") (hns : noSlash n)
      (hnd : (cs.map PropNode.name).Nodup)
      (hcs : ∀ c ∈ cs, GoodTree c) :
      GoodTree (.mk n v cs)

def GoodForest (ps : List PropNode) : Prop :=
  (ps.map PropNode.name).Nodup ∧ ∀ p ∈ ps, GoodTree p

/-- No node carries both a non-empty value and non-empty children. -/
inductive NoMix : PropNode → Prop where
  | mk {n v : String} {cs : List PropNode}
      (hv : v ≠ "" → cs = []) (hcs : ∀ c ∈ cs, NoMix c) :
      NoMix (.mk n v cs)

/-- Modelled from the spec (§3): the `/`-joined root-to-node paths of every
node of a forest (`pre = none` at the roots). -/
def allPathsAux (pre : Option String) : List PropNode → List String
  | [] => []
  | .mk n _ cs :: rest =>
      let path := match pre with
        | none => n
        | some q => q ++ "/" ++ n
      path :: (allPathsAux (some path) cs ++ allPathsAux pre rest)

def allPaths (ps : List PropNode) : List String :=
  allPathsAux none ps

/-! ### Spec-side confidence aggregates (for claim C6) -/

/-- The confidences of the leaves below one `field_data` dict: its nested
property entries when present, else the field itself. -/
def fdLeafConfs (fd : FieldData) : List ℚ :=
  match fd.properties with
  | some ps => ps.map PropEntry.confidence
  | none => [fd.confidence]

/-- Modelled from the spec: the confidences of all leaf fields of the
extracted forest, including leaves nested inside grouped entities. -/
def forestLeafConfs (fields : List (String × FieldVal)) : List ℚ :=
  fields.flatMap (fun kv =>
    match kv.2 with
    | .single fd => fdLeafConfs fd
    | .multi fds => fds.flatMap fdLeafConfs)

/-- Modelled from the spec: "mean of all leaf confidences at extraction
time", `0.0` for an empty forest. -/
def specLeafMeanConfidence (fields : List (String × FieldVal)) : ℚ :=
  let cs := forestLeafConfs fields
  if cs.length > 0 then cs.sum / cs.length else 0

/-- The confidences of the top-level field occurrences of a forest (each
element of a repeated group counted once, nested properties ignored). -/
def topConfs (fields : List (String × FieldVal)) : List ℚ :=
  fields.flatMap (fun kv =>
    match kv.2 with
    | .single fd => [fd.confidence]
    | .multi fds => fds.map FieldData.confidence)

/-- Mean of the top-level occurrence confidences, `0.0` for an empty
forest. -/
def specTopMeanConfidence (fields : List (String × FieldVal)) : ℚ :=
  let cs := topConfs fields
  if cs.length > 0 then cs.sum / cs.length else 0

/-! ### Dictionary lemmas -/

theorem dinsert_of_notMem {α : Type} {k : String} (v : α) {d : List (String × α)}
    (h : k ∉ dkeys d) : dinsert k v d = d ++ [(k, v)] := by
  induction d with
  | nil => rfl
  | cons kv rest ih =>
      obtain ⟨k', v'⟩ := kv
      simp only [dkeys, List.map_cons, List.mem_cons, not_or] at h
      have hne : ¬k' = k := fun he => h.1 he.symm
      simp only [dinsert, if_neg hne, List.cons_append, List.cons.injEq, true_and]
      exact ih h.2

theorem dlookup_dinsert_self {α : Type} (k : String) (v : α) (d : List (String × α)) :
    dlookup k (dinsert k v d) = some v := by
  induction d with
  | nil => simp [dinsert, dlookup]
  | cons kv rest ih =>
      obtain ⟨k', v'⟩ := kv
      by_cases h : k' = k
      · subst h; simp [dinsert, dlookup]
      · simp [dinsert, dlookup, h, ih]

theorem dlookup_dinsert_ne {α : Type} {f k : String} (v : α) (d : List (String × α))
    (h : f ≠ k) : dlookup f (dinsert k v d) = dlookup f d := by
  have hkf : ¬k = f := fun he => h he.symm
  induction d with
  | nil => simp [dinsert, dlookup, hkf]
  | cons kv rest ih =>
      obtain ⟨k', v'⟩ := kv
      by_cases hk : k' = k
      · subst hk; simp [dinsert, dlookup, hkf]
      · by_cases hf : k' = f <;> simp [dinsert, dlookup, hk, hf, h, ih]

theorem dlookup_foldl_dinsert_notMem {α β : Type} (key : β → String) (val : β → α)
    (l : List β) (d : List (String × α)) (f : String) (h : f ∉ l.map key) :
    dlookup f (l.foldl (fun acc b => dinsert (key b) (val b) acc) d) = dlookup f d := by
  induction l generalizing d with
  | nil => rfl
  | cons c rest ih =>
      simp only [List.map_cons, List.mem_cons, not_or] at h
      simp only [List.foldl_cons]
      rw [ih _ h.2, dlookup_dinsert_ne _ _ h.1]

theorem dlookup_foldl_dinsert_mem {α β : Type} (key : β → String) (val : β → α)
    (l : List β) (d : List (String × α)) (b : β)
    (hnd : (l.map key).Nodup) (hb : b ∈ l) :
    dlookup (key b) (l.foldl (fun acc b => dinsert (key b) (val b) acc) d)
      = some (val b) := by
  induction l generalizing d with
  | nil => cases hb
  | cons c rest ih =>
      simp only [List.map_cons, List.nodup_cons] at hnd
      simp only [List.foldl_cons]
      rcases List.mem_cons.mp hb with hbc | hbr
      · subst hbc
        rw [dlookup_foldl_dinsert_notMem key val rest _ _ hnd.1,
          dlookup_dinsert_self]
      · exact ih _ hnd.2 hbr

/-! ### Claim C3: send-failure atomicity -/

/-- Claim C3: for every record and every sink outcome that fails, the Send
handler returns the store unchanged — no status transition, no
`reviewed_data`, `reviewed_at` or `sent_at` write — and surfaces the error
unmodified. -/
theorem send_failure_atomic (store : List Record) (record_id : Option String)
    (flatRows : List (String × String)) (groups : List (String × List GroupItem))
    (e : String) (now : Nat) :
    sendHandler store record_id flatRows groups (.error e) now = (store, .error e) :=
  rfl

/-! ### Claim C9: behavior of the sink depending on configuration -/

/-- Claim C9 counterexample: with the sink UNCONFIGURED (`SAP_API_URL`
unset), `send_purchase_order` does not fail — it returns a mock document
identifier. -/
theorem sap_unconfigured_returns_document :
    send_purchase_order none [] "a.pdf" "1234ABCD"
      = .ok { document_number := "SAP-1234ABCD", status := "CREATED",
              message := "Mock SAP document SAP-1234ABCD created for a.pdf." } :=
  rfl

/-- Claim C9 (amended): when the sink endpoint IS configured,
`send_purchase_order` fails with the permanent `NotImplementedError`
variant instead of returning a document identifier; when unconfigured it
runs in mock mode and returns a generated document identifier. -/
theorem sap_configured_fails_not_implemented (url : String)
    (po : List (String × ReviewedVal)) (fn sfx : String) :
    send_purchase_order (some url) po fn sfx
      = .error (.notImplemented
          "Live SAP integration is not yet implemented. See the comments in services/sap.py for instructions.")
    ∧ send_purchase_order none po fn sfx
      = .ok { document_number := "SAP-" ++ sfx, status := "CREATED",
              message := "Mock SAP document SAP-" ++ sfx ++ " created for " ++ fn ++ "." } :=
  ⟨rfl, rfl⟩

/-! ### Claim C8: unflatten on a conflicting row -/

/-- Claim C8 counterexample: on the malformed row with both `a` and `a/b`,
`_unflatten_to_properties` does not fail — no `ValidationError` exists
anywhere in the code — it produces a forest merging the value and the
children into one node. -/
theorem unflatten_conflict_produces_forest :
    _unflatten_to_properties [("a", "v"), ("a/b", "w")]
      = [PropNode.mk "a" "v" [PropNode.mk "b" "w" []]] := by
  simp [_unflatten_to_properties, pySplit, trieInsert, buildProps, hasKey, updAt]

/-- Claim C8 (amended): `_unflatten_to_properties` never fails; a row with
conflicting value/children entries at one path is merged into a single
node carrying both the scalar value and the children. -/
theorem unflatten_conflict_merges (v w : String) :
    _unflatten_to_properties [("a", v), ("a/b", w)]
      = [PropNode.mk "a" v [PropNode.mk "b" w []]] := by
  simp [_unflatten_to_properties, pySplit, trieInsert, buildProps, hasKey, updAt]

/-! ### Claim C2: edited-flag provenance -/

/-- Claim C2 counterexample: a flat field the user never touched (the edit
map is constantly `none`) is still stored as `{value, edited: true}` by the
Send handler's reviewed-data construction. -/
theorem untouched_field_marked_edited :
    (fun _ : String => (none : Option String)) "po_number" = none
    ∧ dlookup "po_number"
        (buildReviewedData (applyEdits [("po_number", "PO-100")] (fun _ => none)) [])
      = some (.flatField "PO-100" true) :=
  ⟨rfl, rfl⟩

/-- Claim C2 (amended): when the reviewed record is built on Send, EVERY
flat editor field is stored as `{value, edited: true}` whether or not the
user touched it; the stored value is the user's edit for a touched field
and the original value, verbatim, for an untouched one. -/
theorem flat_field_stored_with_edited_true
    (rows : List (String × String)) (edits : String → Option String)
    (groups : List (String × List GroupItem)) (f v : String)
    (hmem : (f, v) ∈ rows) (hnd : (rows.map Prod.fst).Nodup)
    (hg : f ∉ groups.map Prod.fst) :
    dlookup f (buildReviewedData (applyEdits rows edits) groups)
      = some (.flatField ((edits f).getD v) true) := by
  have hkeys : (applyEdits rows edits).map Prod.fst = rows.map Prod.fst := by
    simp [applyEdits]
  have hmem' : (f, (edits f).getD v) ∈ applyEdits rows edits :=
    List.mem_map_of_mem (fun r => (r.1, (edits r.1).getD r.2)) hmem
  have h2 :
      dlookup f ((applyEdits rows edits).foldl
          (fun d r => dinsert r.1 (ReviewedVal.flatField r.2 true) d) [])
        = some (.flatField ((edits f).getD v) true) :=
    dlookup_foldl_dinsert_mem Prod.fst
      (fun r => ReviewedVal.flatField r.2 true)
      (applyEdits rows edits) [] (f, (edits f).getD v)
      (hkeys ▸ hnd) hmem'
  have h1 :
      dlookup f (buildReviewedData (applyEdits rows edits) groups)
        = dlookup f ((applyEdits rows edits).foldl
            (fun d r => dinsert r.1 (ReviewedVal.flatField r.2 true) d) []) :=
    dlookup_foldl_dinsert_notMem Prod.fst (fun g => ReviewedVal.group g.2) groups _ f hg
  exact h1.trans h2

/-- Claim C2 witness: instantiating the amended theorem at a touched field. -/
theorem flat_field_stored_with_edited_true_witness :
    dlookup "po" (buildReviewedData (applyEdits [("po", "P1")] (fun _ => some "P2")) [])
      = some (.flatField (((fun _ : String => some "P2") "po").getD "P1") true) :=
  flat_field_stored_with_edited_true [("po", "P1")] (fun _ => some "P2") [] "po" "P1"
    (by simp) (by simp) (by simp)

/-! ### Claim C4: grouped edits replace the group wholesale -/

/-- Claim C4: submitting N edited rows for a grouped field stores, under the
group's name, exactly the N-element list obtained by classifying and
unflattening each submitted row in table row order — a `properties` node
when the row has a `/`-containing key, more than one column, or no column
named `value`, else a bare `value` node — independently of whatever the
group held before (the item list is a function of the submitted rows
alone, so no original confidence survives). -/
theorem grouped_edit_replaces_wholesale
    (flatRows : List (String × String)) (groups : List (String × List GroupItem))
    (g : String) (rows : List (List (String × String)))
    (hmem : (g, editedRowsToItems rows) ∈ groups)
    (hnd : (groups.map Prod.fst).Nodup) :
    dlookup g (buildReviewedData flatRows groups)
        = some (.group (editedRowsToItems rows))
    ∧ (editedRowsToItems rows).length = rows.length
    ∧ editedRowsToItems rows
        = rows.map (fun row =>
            if row.any (fun kv => kv.1.contains '/') || row.length > 1
                || !hasKey "value" row then
              GroupItem.props (_unflatten_to_properties row)
            else GroupItem.scalar ((dlookup "value" row).getD "")) := by
  refine ⟨?_, by simp [editedRowsToItems], by simp [editedRowsToItems, classifyRow]⟩
  exact dlookup_foldl_dinsert_mem Prod.fst (fun gr => ReviewedVal.group gr.2) groups _
    (g, editedRowsToItems rows) hnd hmem

/-- Claim C4 witness: a two-row group (one nested row, one bare value row)
with a flat field alongside. -/
theorem grouped_edit_replaces_wholesale_witness :
    dlookup "lines"
        (buildReviewedData [("po", "P")]
          [("lines", editedRowsToItems [[("sku", "A1"), ("qty", "5")], [("value", "x")]])])
        = some (.group (editedRowsToItems [[("sku", "A1"), ("qty", "5")], [("value", "x")]]))
    ∧ (editedRowsToItems [[("sku", "A1"), ("qty", "5")], [("value", "x")]]).length
        = [[("sku", "A1"), ("qty", "5")], [("value", "x")]].length
    ∧ editedRowsToItems [[("sku", "A1"), ("qty", "5")], [("value", "x")]]
        = [[("sku", "A1"), ("qty", "5")], [("value", "x")]].map (fun row =>
            if row.any (fun kv => kv.1.contains '/') || row.length > 1
                || !hasKey "value" row then
              GroupItem.props (_unflatten_to_properties row)
            else GroupItem.scalar ((dlookup "value" row).getD "")) :=
  grouped_edit_replaces_wholesale [("po", "P")]
    [("lines", editedRowsToItems [[("sku", "A1"), ("qty", "5")], [("value", "x")]])]
    "lines" [[("sku", "A1"), ("qty", "5")], [("value", "x")]]
    (by simp) (by simp)

/-! ### Claims C5 and C10: lifecycle invariants over reachable records -/

/-- Comparison against an optional timestamp: trivially true when absent. -/
def leOpt (a : Nat) : Option Nat → Prop
  | none => True
  | some t => a ≤ t

/-- Comparison of two optional timestamps: only constrains two present
values. -/
def leOptOpt : Option Nat → Option Nat → Prop
  | some a, some b => a ≤ b
  | _, _ => True

/-- The C5 invariant: `created_at ≤ reviewed_at ≤ sent_at` whenever each is
present, a SENT record has `sent_at`, and an EXTRACTED record has neither
review timestamp. -/
def LifecycleInv (r : Record) : Prop :=
  leOpt r.created_at r.reviewed_at
  ∧ leOpt r.created_at r.sent_at
  ∧ leOptOpt r.reviewed_at r.sent_at
  ∧ (r.status = "SENT" → r.sent_at.isSome = true)
  ∧ (r.status = "EXTRACTED" → r.reviewed_at = none ∧ r.sent_at = none)

/-- The C10 invariant: no reachable record carries status REVIEWED,
`reviewed_at` always equals `sent_at` (both written from the same `now` in
the single update of the Send handler), and the only statuses ever written
are EXTRACTED and SENT. -/
def SingleWriterInv (r : Record) : Prop :=
  r.status ≠ "REVIEWED"
  ∧ r.reviewed_at = r.sent_at
  ∧ (r.status = "EXTRACTED" ∨ r.status = "SENT")

theorem reachable_invariants {r : Record} (h : Reachable r) :
    LifecycleInv r ∧ SingleWriterInv r := by
  induction h with
  | created req rid t hstatus =>
      refine ⟨⟨trivial, trivial, trivial, ?_, fun _ => ⟨rfl, rfl⟩⟩,
        ?_, rfl, Or.inl ?_⟩
      · intro hs
        simp [createdRecord, hstatus] at hs
      · simp [createdRecord, hstatus]
      · simp [createdRecord, hstatus]
  | sent r hr d t ht ih =>
      refine ⟨⟨?_, ?_, ?_, fun _ => rfl, ?_⟩, ?_, rfl, Or.inr rfl⟩
      · exact ht
      · exact ht
      · exact Nat.le_refl t
      · intro hs; simp [applyUpdate, sendUpdate] at hs
      · intro hs; simp [applyUpdate, sendUpdate] at hs

/-- Claim C5: for every record produced by creation (`save_extraction` as
invoked with status EXTRACTED) followed by any sequence of successful Send
transitions (under a nondecreasing wall clock), `created_at ≤ reviewed_at ≤
sent_at` whenever each is present, every SENT record has `sent_at`, and an
EXTRACTED record has neither `reviewed_at` nor `sent_at`. -/
theorem lifecycle_monotonic {r : Record} (h : Reachable r) : LifecycleInv r :=
  (reachable_invariants h).1

/-- Claim C5 witness: a created-then-sent record. -/
theorem lifecycle_monotonic_witness :
    LifecycleInv (applyUpdate (sendUpdate [] 7)
      (createdRecord ⟨"a.pdf", "gs://b/a.pdf", "proc", "Proc", some "EXTRACTED", [], 0⟩
        "id1" 5)) :=
  lifecycle_monotonic
    (Reachable.sent _ (Reachable.created _ "id1" 5 rfl) [] 7 (by decide))

/-- Claim C10: across every operation in the code the only status writer is
the Send handler, which writes SENT together with one shared timestamp for
`reviewed_at` and `sent_at`; hence no reachable record has status REVIEWED
and `reviewed_at = sent_at` always. -/
theorem status_reviewed_never_assigned {r : Record} (h : Reachable r) :
    SingleWriterInv r :=
  (reachable_invariants h).2

/-- Claim C10 witness: a freshly created record. -/
theorem status_reviewed_never_assigned_witness :
    SingleWriterInv
      (createdRecord ⟨"b.pdf", "gs://b/b.pdf", "proc", "Proc", some "EXTRACTED", [], 0⟩
        "id2" 3) :=
  status_reviewed_never_assigned (Reachable.created _ "id2" 3 rfl)

/-! ### Claim C6: the record-level confidence aggregate -/

/-- The top-level confidences contributed by one `fields` value. -/
def fvConfs : FieldVal → List ℚ
  | .single fd => [fd.confidence]
  | .multi fds => fds.map FieldData.confidence

theorem topConfs_nil : topConfs [] = [] := rfl

theorem topConfs_cons (k : String) (fv : FieldVal) (rest : List (String × FieldVal)) :
    topConfs ((k, fv) :: rest) = fvConfs fv ++ topConfs rest := by
  cases fv <;> rfl

theorem topConfs_append (a b : List (String × FieldVal)) :
    topConfs (a ++ b) = topConfs a ++ topConfs b := by
  simp [topConfs]

theorem dlookup_eq_none_iff {α : Type} (k : String) (d : List (String × α)) :
    dlookup k d = none ↔ k ∉ dkeys d := by
  induction d with
  | nil => simp [dlookup, dkeys]
  | cons kv rest ih =>
      obtain ⟨k', v'⟩ := kv
      by_cases h : k' = k
      · subst h; simp [dlookup, dkeys]
      · have hne : ¬k = k' := fun he => h he.symm
        simp [dlookup, dkeys, h, hne, ih]

theorem topConfs_dinsert_found (k : String) (newv : FieldVal) :
    ∀ (fields : List (String × FieldVal)) (fv : FieldVal),
      dlookup k fields = some fv →
      (topConfs (dinsert k newv fields)).sum + (fvConfs fv).sum
          = (topConfs fields).sum + (fvConfs newv).sum
      ∧ (topConfs (dinsert k newv fields)).length + (fvConfs fv).length
          = (topConfs fields).length + (fvConfs newv).length := by
  intro fields
  induction fields with
  | nil => intro fv h; simp [dlookup] at h
  | cons kv rest ih =>
      obtain ⟨k', w⟩ := kv
      intro fv h
      by_cases hk : k' = k
      · subst hk
        have hw : w = fv := by simpa [dlookup] using h
        subst hw
        have hd : dinsert k' newv ((k', w) :: rest) = (k', newv) :: rest := by
          simp [dinsert]
        rw [hd]
        simp only [topConfs_cons, List.sum_append, List.length_append]
        constructor
        · ring
        · omega
      · have h' : dlookup k rest = some fv := by simpa [dlookup, hk] using h
        obtain ⟨hs, hl⟩ := ih fv h'
        simp only [dinsert, if_neg hk, topConfs_cons, List.sum_append,
          List.length_append]
        constructor
        · linarith
        · omega

theorem topConfs_addField (fields : List (String × FieldVal)) (e : Entity) :
    (topConfs (addField fields e)).sum = (topConfs fields).sum + e.confidence
    ∧ (topConfs (addField fields e)).length = (topConfs fields).length + 1 := by
  have hfd : (toFieldData e).confidence = e.confidence := rfl
  rcases h : dlookup e.type_ fields with _ | fv
  · have hnot : e.type_ ∉ dkeys fields := (dlookup_eq_none_iff _ _).mp h
    simp only [addField, h]
    rw [dinsert_of_notMem _ hnot, topConfs_append]
    constructor <;> simp [topConfs, fvConfs, hfd]
  · rcases fv with old | olds
    · obtain ⟨hs, hl⟩ := topConfs_dinsert_found e.type_
        (.multi [old, toFieldData e]) fields (.single old) h
      simp only [fvConfs, List.map_cons, List.map_nil, List.sum_cons,
        List.sum_nil, List.length_cons, List.length_nil, hfd] at hs hl
      simp only [addField, h]
      constructor
      · linarith
      · omega
    · obtain ⟨hs, hl⟩ := topConfs_dinsert_found e.type_
        (.multi (olds ++ [toFieldData e])) fields (.multi olds) h
      simp only [fvConfs, List.map_append, List.map_cons, List.map_nil,
        List.sum_append, List.sum_cons, List.sum_nil, List.length_append,
        List.length_map, List.length_cons, List.length_nil, hfd] at hs hl
      simp only [addField, h]
      constructor
      · linarith
      · omega

theorem topConfs_buildFields_aux (es : List Entity) :
    ∀ fields : List (String × FieldVal),
      (topConfs (es.foldl addField fields)).sum
          = (topConfs fields).sum + (es.map Entity.confidence).sum
      ∧ (topConfs (es.foldl addField fields)).length
          = (topConfs fields).length + es.length := by
  induction es with
  | nil => intro fields; simp
  | cons e rest ih =>
      intro fields
      simp only [List.foldl_cons, List.map_cons, List.sum_cons, List.length_cons]
      have h1 := ih (addField fields e)
      have h2 := topConfs_addField fields e
      constructor
      · rw [h1.1, h2.1]; ring
      · rw [h1.2, h2.2]; omega

theorem foldl_conf_sum (es : List Entity) :
    ∀ a : ℚ, es.foldl (fun a e => a + e.confidence) a
      = a + (es.map Entity.confidence).sum := by
  induction es with
  | nil => intro a; simp
  | cons e rest ih =>
      intro a
      simp only [List.foldl_cons, List.map_cons, List.sum_cons]
      rw [ih]; ring

/-- Claim C6 counterexample: a document with one grouped entity (confidence
0.5) whose two nested leaves both have confidence 0.9.  The stored record
confidence is 0.5, the mean over all leaves would be 0.9. -/
theorem confidence_ignores_nested_leaves :
    overall_confidence
        [⟨"line_items", "", none, 1/2,
          [⟨"sku", "A1", 9/10⟩, ⟨"qty", "3", 9/10⟩]⟩] = 1/2
    ∧ specLeafMeanConfidence (buildFields
        [⟨"line_items", "", none, 1/2,
          [⟨"sku", "A1", 9/10⟩, ⟨"qty", "3", 9/10⟩]⟩]) = 9/10
    ∧ (1/2 : ℚ) ≠ 9/10 := by
  refine ⟨?_, ?_, by norm_num⟩
  · simp [overall_confidence]
  · norm_num [specLeafMeanConfidence, forestLeafConfs, buildFields, addField,
      toFieldData, dlookup, dinsert, fdLeafConfs]

/-- Claim C6 (amended): the confidence stored on the record by
`process_document` equals the arithmetic mean of the confidences of the
TOP-LEVEL field occurrences of the extracted forest (each element of a
repeated group counted once, nested property leaves excluded), and 0.0
when the document yields no entities. -/
theorem confidence_is_top_level_mean (entities : List Entity) (text : String) :
    (process_document entities text).confidence
      = specTopMeanConfidence ((process_document entities text).fields) := by
  have h := topConfs_buildFields_aux entities []
  simp only [topConfs_nil, List.sum_nil, List.length_nil, zero_add] at h
  simp only [process_document, overall_confidence, specTopMeanConfidence,
    buildFields, h.1, h.2, foldl_conf_sum entities 0, zero_add]

/-! ### Claim C7: batch isolation -/

theorem processBatch_spec (pname pdisp : String) (now : Nat) :
    ∀ (docs : List (String × DocOracle)) (store : List Record),
      processBatch docs pname pdisp now store
        = (docs.map (fun d => (processOne d.1 d.2 pname pdisp now).1),
           store ++ docs.filterMap (fun d => (processOne d.1 d.2 pname pdisp now).2)) := by
  intro docs
  induction docs with
  | nil => intro store; simp [processBatch]
  | cons d rest ih =>
      intro store
      obtain ⟨fn, o⟩ := d
      simp only [processBatch, ih, List.map_cons, List.filterMap_cons]
      rcases h : (processOne fn o pname pdisp now).2 with _ | r <;> simp [h]

/-- Claim C7: the batch loop processes documents sequentially and
independently — the results list has one entry per document, in order,
each determined by that document's own collaborator outcomes alone; every
document whose processing fails (here: the extraction call raises after a
successful upload) yields an ERROR entry carrying its filename and the
message, contributes no record to the store, and leaves every other
document's entry and the rest of the batch unaffected. -/
theorem batch_isolation (docs : List (String × DocOracle)) (pname pdisp : String)
    (now : Nat) (store : List Record) (fn : String) (o : DocOracle) (u e : String)
    (hu : o.upload = .ok u) (he : o.extractOutcome = .error e) :
    (processBatch docs pname pdisp now store).1
        = docs.map (fun d => (processOne d.1 d.2 pname pdisp now).1)
    ∧ (processBatch docs pname pdisp now store).1.length = docs.length
    ∧ (processBatch docs pname pdisp now store).2
        = store ++ docs.filterMap (fun d => (processOne d.1 d.2 pname pdisp now).2)
    ∧ processOne fn o pname pdisp now = (.err fn e, none) := by
  have h := processBatch_spec pname pdisp now docs store
  refine ⟨by rw [h], by rw [h]; simp, by rw [h], ?_⟩
  simp [processOne, hu, he]

/-- Claim C7 witness: a two-document batch whose first document fails at
extraction and whose second succeeds. -/
theorem batch_isolation_witness :
    (processBatch
        [("a.pdf", ⟨.ok "gs://b/a.pdf", .error "boom", .ok "id1"⟩),
         ("b.pdf", ⟨.ok "gs://b/b.pdf", .ok ([], "txt"), .ok "id2"⟩)]
        "proc" "Proc" 4 []).1
      = [("a.pdf", (⟨.ok "gs://b/a.pdf", .error "boom", .ok "id1"⟩ : DocOracle)),
         ("b.pdf", (⟨.ok "gs://b/b.pdf", .ok ([], "txt"), .ok "id2"⟩ : DocOracle))].map
          (fun d => (processOne d.1 d.2 "proc" "Proc" 4).1)
    ∧ (processBatch
        [("a.pdf", ⟨.ok "gs://b/a.pdf", .error "boom", .ok "id1"⟩),
         ("b.pdf", ⟨.ok "gs://b/b.pdf", .ok ([], "txt"), .ok "id2"⟩)]
        "proc" "Proc" 4 []).1.length
      = [("a.pdf", (⟨.ok "gs://b/a.pdf", .error "boom", .ok "id1"⟩ : DocOracle)),
         ("b.pdf", (⟨.ok "gs://b/b.pdf", .ok ([], "txt"), .ok "id2"⟩ : DocOracle))].length
    ∧ (processBatch
        [("a.pdf", ⟨.ok "gs://b/a.pdf", .error "boom", .ok "id1"⟩),
         ("b.pdf", ⟨.ok "gs://b/b.pdf", .ok ([], "txt"), .ok "id2"⟩)]
        "proc" "Proc" 4 []).2
      = [] ++ [("a.pdf", (⟨.ok "gs://b/a.pdf", .error "boom", .ok "id1"⟩ : DocOracle)),
         ("b.pdf", (⟨.ok "gs://b/b.pdf", .ok ([], "txt"), .ok "id2"⟩ : DocOracle))].filterMap
          (fun d => (processOne d.1 d.2 "proc" "Proc" 4).2)
    ∧ processOne "a.pdf" ⟨.ok "gs://b/a.pdf", .error "boom", .ok "id1"⟩ "proc" "Proc" 4
        = (.err "a.pdf" "boom", none) :=
  batch_isolation _ "proc" "Proc" 4 [] "a.pdf"
    ⟨.ok "gs://b/a.pdf", .error "boom", .ok "id1"⟩ "gs://b/a.pdf" "boom" rfl rfl

/-! ### Claim C1: flatten/unflatten round trip — split/join infrastructure -/

theorem splitOnP_append_sep {α : Type} (p : α → Bool) (c : α) (hc : p c = true)
    (xs ys : List α) :
    (xs ++ c :: ys).splitOnP p = xs.splitOnP p ++ ys.splitOnP p := by
  induction xs with
  | nil => simp [List.splitOnP_cons, hc]
  | cons x xs ih =>
      by_cases hx : p x = true
      · simp [List.splitOnP_cons, hx, ih]
      · simp only [List.cons_append, List.splitOnP_cons, hx, Bool.false_eq_true,
          if_false, ih]
        cases h : xs.splitOnP p with
        | nil => exact absurd h (List.splitOnP_ne_nil p xs)
        | cons a as => simp [List.modifyHead]

theorem data_append_slash (a b : String) :
    (a ++ "/" ++ b).data = a.data ++ '/' :: b.data := by
  simp [String.data_append]

theorem pySplit_append_slash (a b : String) :
    pySplit (a ++ "/" ++ b) = pySplit a ++ pySplit b := by
  unfold pySplit
  rw [data_append_slash, List.splitOn, List.splitOn, List.splitOn,
    splitOnP_append_sep _ '/' (by simp), List.map_append]

theorem pySplit_of_noSlash {s : String} (h : noSlash s) : pySplit s = [s] := by
  unfold pySplit
  rw [List.splitOn, List.splitOnP_eq_single]
  · simp
  · intro x hx
    simp only [beq_iff_eq]
    intro he; subst he; exact h hx

theorem append_slash_ne_empty (a b : String) : a ++ "/" ++ b ≠ "" := by
  intro h0
  have : (a ++ "/" ++ b).data = ("" : String).data := by rw [h0]
  rw [data_append_slash] at this
  simp at this

/-! ### Claim C1: simple pre-order views of flatten and unflatten -/

/-- Pre-order key/value list of a forest: what `_flatten_properties`
produces when no key collides. -/
def preorderS (pre : String) : List PropNode → List (String × String)
  | [] => []
  | .mk n v cs :: rest =>
      let key := if pre = "" then n else pre ++ "/" ++ n
      (key, v) :: (preorderS key cs ++ preorderS pre rest)

/-- Pre-order rows with paths as part lists (relative to the forest's
root). -/
def rowsL : List PropNode → List (List String × String)
  | [] => []
  | .mk n v cs :: rest =>
      ([n], v) :: ((rowsL cs).map (fun r => (n :: r.1, r.2)) ++ rowsL rest)

/-- The intermediate tree that unflattening a forest's rows builds. -/
def toTrie : List PropNode → List (String × TrieN)
  | [] => []
  | .mk n v cs :: rest => (n, .mk v (toTrie cs)) :: toTrie rest

/-- Folding `trieInsert` over a list of part-list rows. -/
def insertRowsL (t : List (String × TrieN)) (rows : List (List String × String)) :
    List (String × TrieN) :=
  rows.foldl (fun t r => trieInsert r.1 r.2 t) t

/-! ### Claim C1: updAt / hasKey lemmas -/

theorem TrieN.eta (nd : TrieN) : TrieN.mk nd.value nd.children = nd := by
  cases nd; rfl

theorem updAt_of_id (k : String) {f : TrieN → TrieN} (hf : ∀ n, f n = n) :
    ∀ t : List (String × TrieN), updAt k f t = t := by
  intro t
  induction t with
  | nil => rfl
  | cons kv rest ih =>
      obtain ⟨k', n⟩ := kv
      by_cases h : k' = k <;> simp [updAt, h, hf, ih]

theorem updAt_updAt (k : String) (f g : TrieN → TrieN)
    (t : List (String × TrieN)) :
    updAt k f (updAt k g t) = updAt k (fun n => f (g n)) t := by
  induction t with
  | nil => rfl
  | cons kv rest ih =>
      obtain ⟨k', n⟩ := kv
      by_cases h : k' = k <;> simp [updAt, h, ih]

theorem hasKey_updAt (k k' : String) (f : TrieN → TrieN)
    (t : List (String × TrieN)) :
    hasKey k (updAt k' f t) = hasKey k t := by
  induction t with
  | nil => rfl
  | cons kv rest ih =>
      obtain ⟨k'', n⟩ := kv
      have ih' : ((updAt k' f rest).any fun kv => kv.1 == k)
          = rest.any fun kv => kv.1 == k := by simpa [hasKey] using ih
      by_cases h : k'' = k' <;> simp [updAt, hasKey, h, ih']

theorem hasKey_append {α : Type} (k : String) (t s : List (String × α)) :
    hasKey k (t ++ s) = (hasKey k t || hasKey k s) := by
  simp [hasKey]

theorem hasKey_iff_mem_dkeys {α : Type} (k : String) (d : List (String × α)) :
    hasKey k d = true ↔ k ∈ dkeys d := by
  simp only [hasKey, dkeys, List.any_eq_true, List.mem_map, beq_iff_eq]

theorem updAt_append_single (k : String) (f : TrieN → TrieN) (x : TrieN) :
    ∀ t : List (String × TrieN), k ∉ dkeys t →
      updAt k f (t ++ [(k, x)]) = t ++ [(k, f x)] := by
  intro t
  induction t with
  | nil => intro _; simp [updAt]
  | cons kv rest ih =>
      intro h
      obtain ⟨k', n⟩ := kv
      simp only [dkeys, List.map_cons, List.mem_cons, not_or] at h
      have hne : ¬k' = k := fun he => h.1 he.symm
      simp only [List.cons_append, updAt, if_neg hne, List.cons.injEq, true_and]
      exact ih h.2

theorem insertRowsL_map_cons (n : String) :
    ∀ (rows : List (List String × String)) (t : List (String × TrieN)),
      hasKey n t = true → (∀ r ∈ rows, r.1 ≠ []) →
      insertRowsL t (rows.map (fun r => (n :: r.1, r.2)))
        = updAt n (fun nd => TrieN.mk nd.value (insertRowsL nd.children rows)) t := by
  intro rows
  induction rows with
  | nil =>
      intro t _ _
      simp only [List.map_nil, insertRowsL, List.foldl_nil]
      exact (updAt_of_id n (fun nd => by simp [insertRowsL, TrieN.eta]) t).symm
  | cons r rs ih =>
      intro t ht hr
      obtain ⟨parts, v⟩ := r
      have hp : parts ≠ [] := by simpa using hr (parts, v) (List.mem_cons_self _ _)
      obtain ⟨q, qs, rfl⟩ := List.exists_cons_of_ne_nil hp
      have hrs : ∀ r ∈ rs, r.1 ≠ [] := fun r hr' => hr r (List.mem_cons_of_mem _ hr')
      have step : trieInsert (n :: q :: qs) v t
          = updAt n (fun nd => TrieN.mk nd.value (trieInsert (q :: qs) v nd.children)) t := by
        simp [trieInsert, ht]
      calc insertRowsL t (((q :: qs, v) :: rs).map (fun r => (n :: r.1, r.2)))
          = insertRowsL (trieInsert (n :: q :: qs) v t)
              (rs.map (fun r => (n :: r.1, r.2))) := rfl
        _ = updAt n (fun nd => TrieN.mk nd.value (insertRowsL nd.children rs))
              (updAt n
                (fun nd => TrieN.mk nd.value (trieInsert (q :: qs) v nd.children)) t) := by
            rw [← step]
            exact ih _ (by rw [step, hasKey_updAt]; exact ht) hrs
        _ = updAt n
              (fun nd => TrieN.mk nd.value (insertRowsL nd.children ((q :: qs, v) :: rs)))
              t := by
            rw [updAt_updAt]
            congr 1

theorem rowsL_shape (ps : List PropNode) :
    ∀ r ∈ rowsL ps, ∃ p, p ∈ ps ∧ ∃ tl, r.1 = p.name :: tl := by
  induction ps with
  | nil => intro r hr; simp [rowsL] at hr
  | cons p rest ih =>
      obtain ⟨n, v, cs⟩ := p
      intro r hr
      simp only [rowsL, List.mem_cons, List.mem_append, List.mem_map] at hr
      rcases hr with rfl | ⟨⟨r', _, rfl⟩ | hr⟩
      · exact ⟨.mk n v cs, List.mem_cons_self _ _, [], rfl⟩
      · exact ⟨.mk n v cs, List.mem_cons_self _ _, r'.1, rfl⟩
      · obtain ⟨p', hp', tl, htl⟩ := ih r hr
        exact ⟨p', List.mem_cons_of_mem _ hp', tl, htl⟩

theorem GoodTree.fields {n v : String} {cs : List PropNode}
    (h : GoodTree (.mk n v cs)) :
    n ≠ "" ∧ noSlash n ∧ (cs.map PropNode.name).Nodup ∧ ∀ c ∈ cs, GoodTree c := by
  cases h with
  | mk hne hns hnd hcs => exact ⟨hne, hns, hnd, hcs⟩

theorem insertRowsL_toTrie :
    ∀ (ps : List PropNode), GoodForest ps →
      ∀ (t : List (String × TrieN)), (∀ p ∈ ps, hasKey p.name t = false) →
        insertRowsL t (rowsL ps) = t ++ toTrie ps
  | [], _, t, _ => by simp [rowsL, insertRowsL, toTrie]
  | .mk n v cs :: rest, ⟨hnd, hgood⟩, t, hfresh => by
      obtain ⟨hne, hns, hcnd, hccs⟩ := (hgood _ (List.mem_cons_self _ _)).fields
      have hfr : hasKey n t = false := by
        simpa using hfresh _ (List.mem_cons_self _ _)
      have hstep1 : trieInsert [n] v t = t ++ [(n, TrieN.mk v [])] := by
        simp [trieInsert, hfr]
      have hnotmem : n ∉ dkeys t := by
        intro hm
        rw [← hasKey_iff_mem_dkeys, hfr] at hm
        cases hm
      have hchildren : insertRowsL [] (rowsL cs) = toTrie cs := by
        have := insertRowsL_toTrie cs ⟨hcnd, hccs⟩ [] (fun p _ => rfl)
        simpa using this
      have hrest_good : GoodForest rest :=
        ⟨(List.nodup_cons.mp hnd).2, fun p hp => hgood p (List.mem_cons_of_mem _ hp)⟩
      have hn_rest : n ∉ rest.map PropNode.name := (List.nodup_cons.mp hnd).1
      calc insertRowsL t (rowsL (.mk n v cs :: rest))
          = insertRowsL (trieInsert [n] v t)
              ((rowsL cs).map (fun r => (n :: r.1, r.2)) ++ rowsL rest) := by
            have hr : rowsL (.mk n v cs :: rest)
                = ([n], v) :: ((rowsL cs).map (fun r => (n :: r.1, r.2)) ++ rowsL rest) := by
              simp [rowsL]
            rw [hr]; rfl
        _ = insertRowsL (insertRowsL (t ++ [(n, TrieN.mk v [])])
              ((rowsL cs).map (fun r => (n :: r.1, r.2)))) (rowsL rest) := by
            rw [hstep1]; simp [insertRowsL, List.foldl_append]
        _ = insertRowsL
              (updAt n (fun nd => TrieN.mk nd.value (insertRowsL nd.children (rowsL cs)))
                (t ++ [(n, TrieN.mk v [])])) (rowsL rest) := by
            rw [insertRowsL_map_cons n (rowsL cs) _ ?hk ?hr]
            case hk => rw [hasKey_append]; simp [hasKey]
            case hr =>
              intro r hr
              obtain ⟨p, _, tl, htl⟩ := rowsL_shape cs r hr
              rw [htl]; simp
        _ = insertRowsL (t ++ [(n, TrieN.mk v (insertRowsL [] (rowsL cs)))])
              (rowsL rest) := by
            rw [updAt_append_single n _ _ t hnotmem]
            simp only [TrieN.value_of_mk, TrieN.children_of_mk]
        _ = insertRowsL (t ++ [(n, TrieN.mk v (toTrie cs))]) (rowsL rest) := by
            rw [hchildren]
        _ = (t ++ [(n, TrieN.mk v (toTrie cs))]) ++ toTrie rest := by
            apply insertRowsL_toTrie rest hrest_good
            intro p hp
            rw [hasKey_append]
            have h1 : hasKey p.name t = false := hfresh _ (List.mem_cons_of_mem _ hp)
            have hne2 : ¬n = p.name := by
              intro he
              exact hn_rest (he ▸ List.mem_map_of_mem PropNode.name hp)
            have h2 : hasKey p.name [(n, TrieN.mk v (toTrie cs))] = false := by
              simp [hasKey, hne2]
            rw [h1, h2]
            rfl
        _ = t ++ toTrie (.mk n v cs :: rest) := by simp [toTrie]
termination_by ps => sizeOf ps

theorem buildProps_toTrie :
    ∀ ps : List PropNode, buildProps (toTrie ps) = ps
  | [] => by simp [toTrie, buildProps]
  | .mk n v cs :: rest => by
      have h1 : toTrie (.mk n v cs :: rest)
          = (n, TrieN.mk v (toTrie cs)) :: toTrie rest := by simp [toTrie]
      have h2 : buildProps ((n, TrieN.mk v (toTrie cs)) :: toTrie rest)
          = PropNode.mk n v (if (toTrie cs).isEmpty then [] else buildProps (toTrie cs))
            :: buildProps (toTrie rest) := by simp [buildProps]
      rw [h1, h2, buildProps_toTrie rest]
      congr 1
      cases cs with
      | nil => simp [toTrie, buildProps]
      | cons c cs' =>
          have h4 : (toTrie (c :: cs')).isEmpty = false := by
            obtain ⟨cn, cv, ccs⟩ := c
            simp [toTrie]
          rw [if_neg (by simp [h4])]
          exact congrArg (PropNode.mk n v) (buildProps_toTrie (c :: cs'))
termination_by ps => sizeOf ps

/-! ### Claim C1: the flattened dict is the pre-order list when keys are
fresh -/

theorem dkeys_append {α : Type} (a b : List (String × α)) :
    dkeys (a ++ b) = dkeys a ++ dkeys b := by
  simp [dkeys]

theorem dupdate_of_fresh {α : Type} :
    ∀ (items d : List (String × α)),
      (∀ k ∈ dkeys items, k ∉ dkeys d) → (dkeys items).Nodup →
      dupdate d items = d ++ items := by
  intro items
  induction items with
  | nil => intro d _ _; simp [dupdate]
  | cons kv rest ih =>
      intro d hdisj hnd
      obtain ⟨k, v⟩ := kv
      have hk : k ∉ dkeys d := hdisj k (by simp [dkeys])
      have hnd' : k ∉ dkeys rest ∧ (dkeys rest).Nodup := by
        simpa [dkeys] using hnd
      have hstep : dupdate d ((k, v) :: rest) = dupdate (dinsert k v d) rest := rfl
      rw [hstep, dinsert_of_notMem v hk, ih (d ++ [(k, v)]) ?disj hnd'.2]
      · simp
      case disj =>
        intro k' hk'
        rw [dkeys_append]
        simp only [List.mem_append, not_or]
        refine ⟨fun hm => hdisj k' (List.mem_cons_of_mem _ hk') hm, ?_⟩
        simp only [dkeys, List.map_cons, List.map_nil, List.mem_singleton]
        intro he
        subst he
        exact hnd'.1 hk'

theorem flattenAux_eq_preorderS :
    ∀ (ps : List PropNode) (pre : String) (acc : List (String × String)),
      (dkeys (preorderS pre ps)).Nodup →
      (∀ k ∈ dkeys (preorderS pre ps), k ∉ dkeys acc) →
      flattenAux pre acc ps = acc ++ preorderS pre ps
  | [], pre, acc, _, _ => by simp [flattenAux, preorderS]
  | .mk n v cs :: rest, pre, acc, hnd, hdisj => by
      have hps : preorderS pre (.mk n v cs :: rest)
          = (if pre = "" then n else pre ++ "/" ++ n, v)
            :: (preorderS (if pre = "" then n else pre ++ "/" ++ n) cs
              ++ preorderS pre rest) := by
        simp [preorderS]
      rw [hps] at hnd hdisj
      generalize hdefkey : (if pre = "" then n else pre ++ "/" ++ n) = key at hnd hdisj
      simp only [dkeys, List.map_cons, List.map_append, List.nodup_cons,
        List.nodup_append, List.mem_cons, List.mem_append, not_or] at hnd
      obtain ⟨⟨hkK1, hkK2⟩, hK1, hK2, hK12⟩ := hnd
      have hkacc : key ∉ dkeys acc := hdisj key (by simp [dkeys])
      have hK1acc : ∀ k ∈ dkeys (preorderS key cs), k ∉ dkeys acc := by
        intro k hk
        refine hdisj k ?_
        have : k ∈ dkeys (preorderS key cs ++ preorderS pre rest) := by
          rw [dkeys_append]; exact List.mem_append_left _ hk
        exact List.mem_cons_of_mem _ this
      have hK2acc : ∀ k ∈ dkeys (preorderS pre rest), k ∉ dkeys acc := by
        intro k hk
        refine hdisj k ?_
        have : k ∈ dkeys (preorderS key cs ++ preorderS pre rest) := by
          rw [dkeys_append]; exact List.mem_append_right _ hk
        exact List.mem_cons_of_mem _ this
      have hflat : flattenAux pre acc (.mk n v cs :: rest)
          = flattenAux pre
              (if cs.isEmpty then dinsert key v acc
               else dupdate (dinsert key v acc) (flattenAux key [] cs)) rest := by
        simp [flattenAux, hdefkey]
      rw [hflat, dinsert_of_notMem v hkacc]
      by_cases hcs : cs.isEmpty
      · have hcs' : cs = [] := List.isEmpty_iff.mp hcs
        subst hcs'
        rw [if_pos hcs]
        have hrest := flattenAux_eq_preorderS rest pre (acc ++ [(key, v)])
          (by simpa [dkeys] using hK2)
          (by
            intro k hk
            rw [dkeys_append]
            simp only [List.mem_append, not_or]
            refine ⟨hK2acc k hk, ?_⟩
            simp only [dkeys, List.map_cons, List.map_nil, List.mem_singleton]
            intro he
            subst he
            exact hkK2 (by simpa [dkeys] using hk))
        rw [hrest, hps, hdefkey]
        simp [preorderS]
      · rw [if_neg hcs]
        have hrec1 : flattenAux key [] cs = preorderS key cs := by
          have := flattenAux_eq_preorderS cs key []
            (by simpa [dkeys] using hK1) (by simp [dkeys])
          simpa using this
        rw [hrec1]
        have hupd : dupdate (acc ++ [(key, v)]) (preorderS key cs)
            = acc ++ [(key, v)] ++ preorderS key cs := by
          apply dupdate_of_fresh _ _ ?_ (by simpa [dkeys] using hK1)
          intro k hk
          rw [dkeys_append]
          simp only [List.mem_append, not_or]
          refine ⟨hK1acc k hk, ?_⟩
          simp only [dkeys, List.map_cons, List.map_nil, List.mem_singleton]
          intro he
          subst he
          exact hkK1 (by simpa [dkeys] using hk)
        rw [hupd]
        have hrest := flattenAux_eq_preorderS rest pre
          (acc ++ [(key, v)] ++ preorderS key cs)
          (by simpa [dkeys] using hK2)
          (by
            intro k hk
            rw [dkeys_append, dkeys_append]
            simp only [List.mem_append, not_or]
            have hk' : k ∈ (preorderS pre rest).map Prod.fst := by
              simpa [dkeys] using hk
            refine ⟨⟨hK2acc k hk, ?_⟩, ?_⟩
            · simp only [dkeys, List.map_cons, List.map_nil, List.mem_singleton]
              intro he
              subst he
              exact hkK2 hk'
            · intro hmem
              exact (hK12 (by simpa [dkeys] using hmem)) hk')
        rw [hrest, hps, hdefkey]
        simp [List.append_assoc]
termination_by ps pre acc hnd hdisj => sizeOf ps

theorem preorderS_keyparts :
    ∀ (ps : List PropNode), (∀ p ∈ ps, GoodTree p) →
      ∀ (pre : String) (parts : List String),
        ((pre = "" ∧ parts = []) ∨ (pre ≠ "" ∧ pySplit pre = parts)) →
        (preorderS pre ps).map (fun kv => (pySplit kv.1, kv.2))
          = (rowsL ps).map (fun r => (parts ++ r.1, r.2))
  | [], _, pre, parts, _ => by simp [preorderS, rowsL]
  | .mk n v cs :: rest, hgood, pre, parts, hpre => by
      obtain ⟨hne, hns, hcnd, hccs⟩ := (hgood _ (List.mem_cons_self _ _)).fields
      have hrowshape : rowsL (.mk n v cs :: rest)
          = ([n], v) :: ((rowsL cs).map (fun r => (n :: r.1, r.2)) ++ rowsL rest) := by
        simp [rowsL]
      have hrest := preorderS_keyparts rest
        (fun p hp => hgood p (List.mem_cons_of_mem _ hp)) pre parts hpre
      rcases hpre with ⟨hpre0, hparts0⟩ | ⟨hpre0, hparts0⟩
      · subst hpre0; subst hparts0
        have hkn : pySplit n = [n] := pySplit_of_noSlash hns
        have hcs := preorderS_keyparts cs hccs n [n] (Or.inr ⟨hne, hkn⟩)
        have hpsu : preorderS "" (.mk n v cs :: rest)
            = (n, v) :: (preorderS n cs ++ preorderS "" rest) := by
          simp [preorderS]
        rw [hpsu, hrowshape]
        simp only [List.map_cons, List.map_append, List.map_map, List.nil_append]
        refine congrArg₂ _ (by simp [hkn]) (congrArg₂ _ ?_ ?_)
        · rw [hcs]
          simp [List.map_map]
        · rw [hrest]
          simp
      · have hkparts : pySplit (pre ++ "/" ++ n) = parts ++ [n] := by
          rw [pySplit_append_slash, pySplit_of_noSlash hns, hparts0]
        have hkne : pre ++ "/" ++ n ≠ "" := append_slash_ne_empty pre n
        have hcs := preorderS_keyparts cs hccs (pre ++ "/" ++ n) (parts ++ [n])
          (Or.inr ⟨hkne, hkparts⟩)
        have hpsu : preorderS pre (.mk n v cs :: rest)
            = (pre ++ "/" ++ n, v)
              :: (preorderS (pre ++ "/" ++ n) cs ++ preorderS pre rest) := by
          simp [preorderS, hpre0]
        rw [hpsu, hrowshape]
        simp only [List.map_cons, List.map_append, List.map_map]
        refine congrArg₂ _ (by simp [hkparts]) (congrArg₂ _ ?_ ?_)
        · rw [hcs]
          apply List.map_congr_left
          intro r _
          simp [List.append_assoc]
        · rw [hrest]
termination_by ps hgood pre parts hpre => sizeOf ps

theorem rowsL_parts_nodup :
    ∀ (ps : List PropNode), GoodForest ps →
      ((rowsL ps).map (fun r => r.1)).Nodup
  | [], _ => by simp [rowsL]
  | .mk n v cs :: rest, ⟨hnd, hgood⟩ => by
      obtain ⟨hne, hns, hcnd, hccs⟩ := (hgood _ (List.mem_cons_self _ _)).fields
      have hcs := rowsL_parts_nodup cs ⟨hcnd, hccs⟩
      have hrest := rowsL_parts_nodup rest
        ⟨(List.nodup_cons.mp hnd).2, fun p hp => hgood p (List.mem_cons_of_mem _ hp)⟩
      have hn_rest : n ∉ rest.map PropNode.name := (List.nodup_cons.mp hnd).1
      have hrowshape : rowsL (.mk n v cs :: rest)
          = ([n], v) :: ((rowsL cs).map (fun r => (n :: r.1, r.2)) ++ rowsL rest) := by
        simp [rowsL]
      rw [hrowshape]
      simp only [List.map_cons, List.map_append, List.map_map, List.nodup_cons]
      constructor
      · intro hmem
        rcases List.mem_append.mp hmem with h | h
        · obtain ⟨r, hr, heq⟩ := List.mem_map.mp h
          obtain ⟨p, _, tl, htl⟩ := rowsL_shape cs r hr
          have : n :: r.1 = [n] := heq
          rw [htl] at this
          simp at this
        · obtain ⟨r, hr, heq⟩ := List.mem_map.mp h
          obtain ⟨p, hp, tl, htl⟩ := rowsL_shape rest r hr
          have : r.1 = [n] := heq
          rw [htl] at this
          simp only [List.cons.injEq] at this
          exact hn_rest (this.1 ▸ List.mem_map_of_mem PropNode.name hp)
      · rw [List.nodup_append]
        refine ⟨?_, hrest, ?_⟩
        · have hinj : Function.Injective (fun l : List String => n :: l) := by
            intro a b hab
            simpa using hab
          have := List.Nodup.map hinj hcs
          simpa [List.map_map] using this
        · intro a ha hb
          obtain ⟨r, hr, heq⟩ := List.mem_map.mp ha
          obtain ⟨r', hr', heq'⟩ := List.mem_map.mp hb
          obtain ⟨p', hp', tl', htl'⟩ := rowsL_shape rest r' hr'
          have h1 : n :: r.1 = a := heq
          have h2 : r'.1 = a := heq'
          have : n :: r.1 = r'.1 := h1.trans h2.symm
          rw [htl'] at this
          simp only [List.cons.injEq] at this
          exact hn_rest (this.1 ▸ List.mem_map_of_mem PropNode.name hp')
termination_by ps hps => sizeOf ps

theorem preorderS_keys_nodup (ps : List PropNode) (hps : GoodForest ps) :
    (dkeys (preorderS "" ps)).Nodup := by
  have hmap := preorderS_keyparts ps hps.2 "" [] (Or.inl ⟨rfl, rfl⟩)
  have h2 : (preorderS "" ps).map (fun kv => pySplit kv.1)
      = (rowsL ps).map (fun r => r.1) := by
    have := congrArg (List.map Prod.fst) hmap
    simpa [List.map_map, Function.comp] using this
  have h3 : ((dkeys (preorderS "" ps)).map pySplit).Nodup := by
    have he : (dkeys (preorderS "" ps)).map pySplit
        = (preorderS "" ps).map (fun kv => pySplit kv.1) := by
      simp [dkeys, List.map_map]
    rw [he, h2]
    exact rowsL_parts_nodup ps hps
  exact h3.of_map

/-- Claim C1 (amended): for every forest whose node names are non-empty and
contain no `/`, and whose `/`-joined paths are unique (equivalently, for
such names: sibling names unique at every level), in which no node carries
both a non-empty value and non-empty children, unflattening the result of
flattening gives back exactly the original forest — sibling order
included, since flatten's pre-order emission matches unflatten's
first-insertion order. -/
theorem flatten_unflatten_roundtrip (ps : List PropNode)
    (hgood : GoodForest ps) (hmix : ∀ p ∈ ps, NoMix p) :
    _unflatten_to_properties (_flatten_properties ps) = ps := by
  have hnd := preorderS_keys_nodup ps hgood
  have h1 : _flatten_properties ps = preorderS "" ps := by
    have := flattenAux_eq_preorderS ps "" [] hnd (by simp [dkeys])
    simpa [_flatten_properties] using this
  rw [h1]
  have h2 : (preorderS "" ps).foldl
        (fun root kv => trieInsert (pySplit kv.1) kv.2 root) []
      = toTrie ps := by
    have hmap := preorderS_keyparts ps hgood.2 "" [] (Or.inl ⟨rfl, rfl⟩)
    have e1 : (preorderS "" ps).foldl
          (fun root kv => trieInsert (pySplit kv.1) kv.2 root) []
        = insertRowsL [] ((preorderS "" ps).map (fun kv => (pySplit kv.1, kv.2))) := by
      simp [insertRowsL, List.foldl_map]
    rw [e1, hmap]
    have e2 : (rowsL ps).map (fun r => (([] : List String) ++ r.1, r.2))
        = rowsL ps := by simp
    rw [e2]
    have := insertRowsL_toTrie ps hgood [] (fun p _ => rfl)
    simpa using this
  show buildProps ((preorderS "" ps).foldl
    (fun root kv => trieInsert (pySplit kv.1) kv.2 root) []) = ps
  rw [h2]
  exact buildProps_toTrie ps

/-- Claim C1 counterexample: the forest with the single node named `a/b`
has unique `/`-joined paths and mixes no value with children, yet
unflattening its flattening yields a different forest (the slash in the
name is re-parsed as nesting). -/
theorem roundtrip_fails_on_slash_name :
    (allPaths [PropNode.mk "a/b" "v" []]).Nodup
    ∧ (∀ p ∈ [PropNode.mk "a/b" "v" []], NoMix p)
    ∧ _unflatten_to_properties (_flatten_properties [PropNode.mk "a/b" "v" []])
        = [PropNode.mk "a" "" [PropNode.mk "b" "v" []]]
    ∧ [PropNode.mk "a" "" [PropNode.mk "b" "v" []]] ≠ [PropNode.mk "a/b" "v" []] := by
  refine ⟨?_, ?_, ?_, ?_⟩
  · simp [allPaths, allPathsAux]
  · intro p hp
    simp only [List.mem_singleton] at hp
    subst hp
    exact NoMix.mk (fun _ => rfl) (by simp)
  · simp [_unflatten_to_properties, _flatten_properties, flattenAux, dinsert,
      dupdate, pySplit, trieInsert, buildProps, hasKey, updAt]
  · simp

/-- Claim C1 witness: round trip on a concrete good forest with one scalar
field and one group with two scalar children. -/
theorem flatten_unflatten_roundtrip_witness :
    _unflatten_to_properties (_flatten_properties
        [PropNode.mk "po_number" "PO-100" [],
         PropNode.mk "lines" ""
           [PropNode.mk "sku" "A1" [], PropNode.mk "qty" "3" []]])
      = [PropNode.mk "po_number" "PO-100" [],
         PropNode.mk "lines" ""
           [PropNode.mk "sku" "A1" [], PropNode.mk "qty" "3" []]] :=
  flatten_unflatten_roundtrip _
    ⟨by simp, by
      intro p hp
      simp only [List.mem_cons, List.not_mem_nil, or_false] at hp
      rcases hp with rfl | rfl
      · exact GoodTree.mk (by decide) (by decide) (by simp) (by simp)
      · refine GoodTree.mk (by decide) (by decide) (by simp) ?_
        intro c hc
        simp only [List.mem_cons, List.not_mem_nil, or_false] at hc
        rcases hc with rfl | rfl
        · exact GoodTree.mk (by decide) (by decide) (by simp) (by simp)
        · exact GoodTree.mk (by decide) (by decide) (by simp) (by simp)⟩
    (by
      intro p hp
      simp only [List.mem_cons, List.not_mem_nil, or_false] at hp
      rcases hp with rfl | rfl
      · exact NoMix.mk (fun _ => rfl) (by simp)
      · refine NoMix.mk (fun h => absurd rfl h) ?_
        intro c hc
        simp only [List.mem_cons, List.not_mem_nil, or_false] at hc
        rcases hc with rfl | rfl
        · exact NoMix.mk (fun _ => rfl) (by simp)
        · exact NoMix.mk (fun _ => rfl) (by simp))

end PO
